import Mathlib

/-!
# Verification of the varlog backward chunked line-reversal engine

A shallow embedding of `service/read/chunkReader.go` and
`service/read/reverser.go`: the backward chunk cursor (`chunkReader`),
the line reverser (`reverser`), and the bufio line scanner they rely on
(`scanGo` / `scanTokens`, modelling `bufio.Scanner` with `bufio.ScanLines`).

File bytes are modelled as `List Nat`; the newline byte is `10` and the
carriage-return byte is `13`.  Errors are the inductive `Err`: `eof`
models `io.EOF`, `tooLong` models `bufio.ErrTooLong`, and `io n` models
any other I/O error.  The underlying positional file read (`os.File.ReadAt`)
is a function parameter `ra : Int → Nat → List Nat × Option Err`;
`readAtPure data` instantiates it with the fault-free semantics of a real
file holding `data`.
-/

set_option linter.unusedVariables false

namespace Varlog

/-- Errors observable by the engine.  `eof` is `io.EOF`, `tooLong` is
`bufio.ErrTooLong`, `io n` stands for any other I/O error. -/
inductive Err where
  | eof
  | tooLong
  | io (code : Nat)
deriving DecidableEq, Repr

/-- The constant `bufio.MaxScanTokenSize` (64 KiB), the scanner's maximum token size. -/
def bufioMaxScanTokenSize : Nat := 65536

/-- Model of `dropCR` from `bufio.ScanLines`: drops one trailing carriage return. -/
def dropCR (bs : List Nat) : List Nat :=
  if bs.getLast? = some 13 then bs.dropLast else bs

/-- Worker for the bufio line scanner.  `cur` is the reversed accumulator of
the current (not yet terminated) line.  A token ends at a newline byte (10)
or at the end of data; `dropCR` is applied to each token.  A token whose
length reaches `mx` raises `tooLong` (the scanner's buffer, capped at
`mx` bytes, fills without containing a newline). -/
def scanGo (mx : Nat) (cur : List Nat) : List Nat → List (List Nat) × Option Err
  | [] =>
    if cur.isEmpty then ([], none)
    else if mx ≤ cur.length then ([], some Err.tooLong)
    else ([dropCR cur.reverse], none)
  | b :: bs =>
    if b = 10 then
      if mx ≤ cur.length then ([], some Err.tooLong)
      else
        let p := scanGo mx [] bs
        (dropCR cur.reverse :: p.1, p.2)
    else scanGo mx (b :: cur) bs

/-- The bufio line scanner over an in-memory byte buffer: the list of
tokens obtained by repeated `Scan`, and the final `Err()` state.  Models
the loop `for scanner.Scan() { lines = append(lines, scanner.Text()) }`
followed by `scanner.Err()` in `reverser.lines`. -/
def scanTokens (mx : Nat) (bs : List Nat) : List (List Nat) × Option Err :=
  scanGo mx [] bs

/-- Forward line splitting with unbounded token size and no CR handling:
the reference notion of "the file's lines in true forward order" used to
state the traversal-correctness claims.  Worker with reversed accumulator. -/
def toksGo (cur : List Nat) : List Nat → List (List Nat)
  | [] => if cur.isEmpty then [] else [cur.reverse]
  | b :: bs => if b = 10 then cur.reverse :: toksGo [] bs else toksGo (b :: cur) bs

/-- The lines of a byte list in forward order: split at newline bytes, a
final unterminated fragment counts as a line, a terminal newline does not
produce an extra empty line, and the empty list has no lines. -/
def toks (bs : List Nat) : List (List Nat) := toksGo [] bs

/-- The state of `chunkReader` (chunkReader.go): file length and next read
offset in bytes (both signed, as `int64` in the source), the configured
chunk size, and the last error observed. -/
structure chunkReader where
  fileLength : Int
  nextOffset : Int
  chunkSize : Nat
  lastError : Option Err
deriving DecidableEq, Repr

/-- Model of `newChunkReader`: computes the offset of the first (highest-offset)
chunk from the file length and the configured chunk size. -/
def newChunkReader (csize fileLength : Nat) : chunkReader :=
  { fileLength := (fileLength : Int)
    nextOffset :=
      if fileLength = 0 then 0
      else if fileLength % csize = 0 then (fileLength : Int) - (csize : Int)
      else (fileLength : Int) - ((fileLength % csize : Nat) : Int)
    chunkSize := csize
    lastError := none }

/-- Model of `chunkReader.peekEOF`: the next read will report end of data. -/
def chunkReader.peekEOF (c : chunkReader) : Bool :=
  decide (c.fileLength = 0 ∨ c.nextOffset < 0)

/-- Model of `chunkReader.read`: one positional read of (up to) `blen` bytes.
`ra` is the underlying `os.File.ReadAt`.  Returns the bytes read together
with the error, and the updated cursor.  Mirrors the source: the
empty-file / negative-offset guard comes first, then the sticky-error
check, then the positional read with the `count > 0 && err == io.EOF`
normalization, and the offset always backs up by `blen` (the supplied
buffer length), not by the count actually read. -/
def chunkReader.read (c : chunkReader) (ra : Int → Nat → List Nat × Option Err)
    (blen : Nat) : (List Nat × Option Err) × chunkReader :=
  if c.fileLength = 0 ∨ c.nextOffset < 0 then
    (([], some Err.eof), { c with lastError := some Err.eof })
  else if c.lastError ≠ none then
    (([], c.lastError), c)
  else
    let p := ra c.nextOffset blen
    let e := if 0 < p.1.length ∧ p.2 = some Err.eof then none else p.2
    ((p.1, e), { c with nextOffset := c.nextOffset - (blen : Int), lastError := e })

/-- Fault-free `os.File.ReadAt` over a file whose contents are `data`:
reading at a negative offset is an error, reading at or past the end
returns end of data, and otherwise up to `blen` bytes are returned with
`eof` reported exactly when fewer than `blen` bytes were available. -/
def readAtPure (data : List Nat) (off : Int) (blen : Nat) : List Nat × Option Err :=
  if off < 0 then ([], some (Err.io 1))
  else if (data.length : Int) ≤ off then ([], some Err.eof)
  else
    let bs := (data.drop off.toNat).take blen
    (bs, if bs.length < blen then some Err.eof else none)

/-- The state of `reverser` (reverser.go): the configured chunk size (from
the application properties), the low-level chunk cursor, the bytes of the
chunk being processed, the last error, and the pending cross-chunk line
suffix. -/
structure reverser where
  chunkSize : Nat
  chunker : chunkReader
  chunk : List Nat
  lastError : Option Err
  lineSuffix : List Nat
deriving DecidableEq, Repr

/-- Model of `newReverser`: a fresh reverser over a file of length `fileLength`
with chunk size `csize`. -/
def newReverser (csize fileLength : Nat) : reverser :=
  { chunkSize := csize
    chunker := newChunkReader csize fileLength
    chunk := []
    lastError := none
    lineSuffix := [] }

/-- Model of `reverser.err`: the externally visible error; internal `io.EOF` is a
normal condition and presents as `none`. -/
def reverser.err (r : reverser) : Option Err :=
  if r.lastError = some Err.eof then none else r.lastError

/-- Model of `reverser.saveLineSuffix`: when the chunker is not yet exhausted,
remove the first candidate line of the batch and retain it as the pending
suffix for the next (earlier) chunk; an empty first candidate is retained
as a single newline byte. -/
def reverser.saveLineSuffix (r : reverser) (lines : List (List Nat)) :
    List (List Nat) × reverser :=
  if r.chunker.peekEOF then (lines, { r with lineSuffix := [] })
  else
    match lines with
    | [] => ([], { r with lineSuffix := [] })
    | s :: rest => (rest, { r with lineSuffix := if s = [] then [10] else s })

/-- Model of `reverser.lines`: split the assembled chunk into lines with the bufio
scanner, record a scanner error if any, hold back the pending suffix, and
return the remaining lines reversed. -/
def reverser.lines (r : reverser) : List (List Nat) × reverser :=
  let s := scanTokens bufioMaxScanTokenSize r.chunk
  let r1 := match s.2 with
    | some e => { r with lastError := some e }
    | none => r
  let p := r1.saveLineSuffix s.1
  (p.1.reverse, p.2)

/-- Model of `reverser.scan`: advance to the next chunk.  Returns `false` when the
traversal should stop.  Reads a chunk of `chunkSize` bytes and appends the
pending line suffix to the newly read bytes before line splitting. -/
def reverser.scan (r : reverser) (ra : Int → Nat → List Nat × Option Err) :
    Bool × reverser :=
  if r.lastError ≠ none then (false, r)
  else
    let p := r.chunker.read ra r.chunkSize
    let chunk1 := if 0 < r.lineSuffix.length then p.1.1 ++ r.lineSuffix else p.1.1
    (decide (p.1.2 = none), { r with chunker := p.2, chunk := chunk1, lastError := p.1.2 })

/-- The full traversal driver of `writeLines` (read.go):
`for r.scan() { lines := r.lines(); ... }`, collecting every batch in
delivery order.  `fuel` bounds the number of `scan` calls. -/
def traverse (ra : Int → Nat → List Nat × Option Err) :
    Nat → reverser → List (List Nat) × reverser
  | 0, r => ([], r)
  | fuel + 1, r =>
    let s := r.scan ra
    if s.1 then
      let b := s.2.lines
      let q := traverse ra fuel b.2
      (b.1 ++ q.1, q.2)
    else ([], s.2)

/-- The sequence of lines produced by a full traversal of a file holding
`data` with chunk size `csize` (fuel `data.length / csize + 2` suffices,
as proved below). -/
def fullTraverse (data : List Nat) (csize : Nat) : List (List Nat) :=
  (traverse (readAtPure data) (data.length / csize + 2) (newReverser csize data.length)).1

/-- One advance step of the driver loop: `scan`, and when it succeeds,
`lines`.  Used to speak about the state after a given number of steps. -/
def stepRound (ra : Int → Nat → List Nat × Option Err) (r : reverser) : reverser :=
  let s := r.scan ra
  if s.1 then (s.2.lines).2 else s.2

/-- The reverser state after `j` rounds of the driver loop. -/
def iterRounds (ra : Int → Nat → List Nat × Option Err) :
    Nat → reverser → reverser
  | 0, r => r
  | j + 1, r => stepRound ra (iterRounds ra j r)

/-- A sequence of `read` calls on the chunk cursor, each with the
configured chunk size as buffer length (the contract the callers follow);
each call may see a different underlying `ReadAt`.  Returns the list of
results and the final cursor. -/
def chunkReader.readMany (c : chunkReader) :
    List (Int → Nat → List Nat × Option Err) →
    List (List Nat × Option Err) × chunkReader
  | [] => ([], c)
  | ra :: ras =>
    let p := c.read ra c.chunkSize
    let q := p.2.readMany ras
    (p.1 :: q.1, q.2)

/-! ## Properties of the forward line splitter -/

theorem toksGo_nil (cur : List Nat) :
    toksGo cur [] = if cur.isEmpty then [] else [cur.reverse] := rfl

theorem toksGo_cons (cur : List Nat) (b : Nat) (bs : List Nat) :
    toksGo cur (b :: bs) =
      if b = 10 then cur.reverse :: toksGo [] bs else toksGo (b :: cur) bs := rfl

theorem toksGo_ne_nil : ∀ (bs cur : List Nat), (bs = [] → cur ≠ []) →
    toksGo cur bs ≠ []
  | [], cur, h => by
    simp only [toksGo_nil]
    have hcur : cur ≠ [] := h rfl
    simp [List.isEmpty_iff, hcur]
  | b :: bs, cur, h => by
    rw [toksGo_cons]
    by_cases hb : b = 10
    · simp [hb]
    · simp only [hb, if_false]
      exact toksGo_ne_nil bs (b :: cur) (fun _ => by simp)

/-- A nonempty byte list has at least one line. -/
theorem toks_ne_nil {bs : List Nat} (h : bs ≠ []) : toks bs ≠ [] :=
  toksGo_ne_nil bs [] (fun he => absurd he h)

/-- Splitting at an interior newline: everything up to and including that
newline contributes its lines, and the remainder contributes its own. -/
theorem toksGo_split : ∀ (x : List Nat) (v cur : List Nat),
    toksGo cur (x ++ 10 :: v) = toksGo cur (x ++ [10]) ++ toksGo [] v
  | [], v, cur => by simp [toksGo_cons, toksGo_nil]
  | b :: x, v, cur => by
    by_cases hb : b = 10
    · simp only [List.cons_append, toksGo_cons, hb, if_true]
      rw [toksGo_split x v []]
    · simp only [List.cons_append, toksGo_cons, hb, if_false]
      exact toksGo_split x v (b :: cur)

/-- A trailing newline after a nonempty span not already ending in a
newline does not change the lines. -/
theorem toksGo_concat_nl : ∀ (u cur : List Nat), (u = [] → cur ≠ []) →
    u.getLast? ≠ some 10 → toksGo cur (u ++ [10]) = toksGo cur u
  | [], cur, h, _ => by
    have hcur : cur ≠ [] := h rfl
    simp [toksGo_cons, toksGo_nil, List.isEmpty_iff, hcur]
  | b :: u, cur, h, hlast => by
    have htail : u ≠ [] → u.getLast? ≠ some 10 := by
      intro hu
      obtain ⟨c, u', rfl⟩ : ∃ c u', u = c :: u' := by
        cases u with
        | nil => exact absurd rfl hu
        | cons c u' => exact ⟨c, u', rfl⟩
      rw [← @List.getLast?_cons_cons Nat b c u']
      exact hlast
    by_cases hb : b = 10
    · have hu : u ≠ [] := by
        intro he
        subst he; subst hb
        exact hlast rfl
      simp only [List.cons_append, toksGo_cons, hb, if_true]
      rw [toksGo_concat_nl u [] (fun he => absurd he hu) (htail hu)]
    · simp only [List.cons_append, toksGo_cons, hb, if_false]
      refine toksGo_concat_nl u (b :: cur) (fun _ => by simp) ?_
      cases u with
      | nil => simp
      | cons c u' => exact htail (by simp)

/-- Inversion for the first line of a span: either the span contains a
newline and the first line is everything before the first one, or it has
no newline at all and is itself the only line. -/
theorem toksGo_eq_cons : ∀ (W cur f : List Nat) (R : List (List Nat)),
    toksGo cur W = f :: R →
    (∃ u W', W = u ++ 10 :: W' ∧ 10 ∉ u ∧ f = cur.reverse ++ u ∧ R = toksGo [] W') ∨
    (10 ∉ W ∧ f = cur.reverse ++ W ∧ cur.reverse ++ W ≠ [] ∧ R = [])
  | [], cur, f, R, h => by
    rw [toksGo_nil] at h
    by_cases hcur : cur.isEmpty
    · rw [if_pos hcur] at h
      exact absurd h (by simp)
    · rw [if_neg hcur] at h
      obtain ⟨h1, h2⟩ : cur.reverse = f ∧ [] = R := by
        simpa [List.cons.injEq] using h
      refine Or.inr ⟨by simp, by simp [h1], ?_, h2.symm⟩
      have hcur' : cur ≠ [] := by simpa [List.isEmpty_iff] using hcur
      simp [hcur']
  | b :: W, cur, f, R, h => by
    rw [toksGo_cons] at h
    by_cases hb : b = 10
    · rw [if_pos hb] at h
      obtain ⟨h1, h2⟩ : cur.reverse = f ∧ toksGo [] W = R := by
        simpa [List.cons.injEq] using h
      exact Or.inl ⟨[], W, by simp [hb], by simp, by simp [h1], h2.symm⟩
    · rw [if_neg hb] at h
      rcases toksGo_eq_cons W (b :: cur) f R h with
        ⟨u, W', hW, h10, hf, hR⟩ | ⟨h10, hf, hne, hR⟩
      · refine Or.inl ⟨b :: u, W', by rw [hW]; simp, ?_, ?_, hR⟩
        · simp only [List.mem_cons, not_or]
          exact ⟨fun hh => hb hh.symm, h10⟩
        · rw [hf]; simp
      · refine Or.inr ⟨?_, ?_, by simp, hR⟩
        · simp only [List.mem_cons, not_or]
          exact ⟨fun hh => hb hh.symm, h10⟩
        · rw [hf]; simp

theorem mem_of_getLast?_eq : ∀ {l : List Nat} {a : Nat}, l.getLast? = some a → a ∈ l
  | [], a, h => by simp at h
  | [b], a, h => by
    simp only [List.getLast?_singleton, Option.some.injEq] at h
    simp [h]
  | b :: c :: l, a, h => by
    rw [List.getLast?_cons_cons] at h
    exact List.mem_cons_of_mem b (mem_of_getLast?_eq h)

theorem dropCR_of_no_cr {l : List Nat} (h : 13 ∉ l) : dropCR l = l := by
  rw [dropCR, if_neg]
  intro hc
  exact h (mem_of_getLast?_eq hc)

theorem not_mem_dropCR {l : List Nat} (h : 10 ∉ l) : 10 ∉ dropCR l := by
  rw [dropCR]
  split
  · intro hc
    exact h (List.Sublist.mem hc (List.dropLast_sublist l))
  · exact h

/-- The pending-suffix encoding performed by `reverser.saveLineSuffix`: an
empty first candidate line is retained as a single newline byte. -/
def suffixEnc (f : List Nat) : List Nat := if f = [] then [10] else f

/-- Top-level inversion: the first line of a span carries no newline, and
the span is that line followed either by a newline and the rest of the
span, or by nothing at all. -/
theorem toks_eq_cons {W f : List Nat} {R : List (List Nat)} (h : toks W = f :: R) :
    10 ∉ f ∧
    ((∃ W', W = f ++ 10 :: W' ∧ R = toks W') ∨ (W = f ∧ f ≠ [] ∧ R = [])) := by
  rcases toksGo_eq_cons W [] f R h with ⟨u, W', hW, h10, hf, hR⟩ | ⟨h10, hf, hne, hR⟩
  · simp only [List.reverse_nil, List.nil_append] at hf
    subst hf
    exact ⟨h10, Or.inl ⟨W', hW, hR⟩⟩
  · simp only [List.reverse_nil, List.nil_append] at hf hne
    subst hf
    exact ⟨h10, Or.inr ⟨rfl, hne, hR⟩⟩

/-- The encoded held-back first line of `W` is literally an initial
segment of `W`. -/
theorem suffixEnc_pre {W f : List Nat} {R : List (List Nat)}
    (h : toks W = f :: R) : suffixEnc f <+: W := by
  obtain ⟨h10, hcase⟩ := toks_eq_cons h
  rcases hcase with ⟨W', rfl, hR⟩ | ⟨rfl, hne, hR⟩
  · by_cases hf : f = []
    · subst hf
      simp only [suffixEnc, if_pos rfl, List.nil_append]
      exact ⟨W', rfl⟩
    · simp only [suffixEnc, if_neg hf]
      exact ⟨10 :: W', rfl⟩
  · simp only [suffixEnc, if_neg hne]
    exact List.prefix_rfl

/-- Stitching: prefixing earlier file bytes `B` to the encoded held-back
first line of `W` yields exactly the lines of `B ++ W` except the
already-extracted rest `R`. -/
theorem toks_stitch (B : List Nat) {W f : List Nat} {R : List (List Nat)}
    (h : toks W = f :: R) :
    toks (B ++ suffixEnc f) ++ R = toks (B ++ W) := by
  obtain ⟨h10, hcase⟩ := toks_eq_cons h
  rcases hcase with ⟨W', rfl, rfl⟩ | ⟨rfl, hne, rfl⟩
  · by_cases hf : f = []
    · subst hf
      simp only [suffixEnc, if_pos rfl, List.nil_append]
      exact (toksGo_split B W' []).symm
    · simp only [suffixEnc, if_neg hf]
      have hne2 : B ++ f ≠ [] := by simp [hf]
      have hlast : (B ++ f).getLast? ≠ some 10 := by
        rw [List.getLast?_append_of_ne_nil B hf]
        intro hc
        exact h10 (mem_of_getLast?_eq hc)
      show toksGo [] (B ++ f) ++ toksGo [] W' = toksGo [] (B ++ (f ++ 10 :: W'))
      rw [show B ++ (f ++ 10 :: W') = (B ++ f) ++ 10 :: W' by simp]
      rw [toksGo_split (B ++ f) W' []]
      rw [toksGo_concat_nl (B ++ f) [] (fun hh => (hne2 hh).elim) hlast]
  · simp only [suffixEnc, if_neg hne, List.append_nil]

/-! ## The bufio scanner agrees with the forward splitter on CR-free data
with short lines, delivers newline-free tokens, and reports `tooLong` on
an overlong line -/

theorem scanGo_nil (mx : Nat) (cur : List Nat) :
    scanGo mx cur [] =
      if cur.isEmpty then ([], none)
      else if mx ≤ cur.length then ([], some Err.tooLong)
      else ([dropCR cur.reverse], none) := rfl

theorem scanGo_cons (mx : Nat) (cur : List Nat) (b : Nat) (bs : List Nat) :
    scanGo mx cur (b :: bs) =
      if b = 10 then
        if mx ≤ cur.length then ([], some Err.tooLong)
        else (dropCR cur.reverse :: (scanGo mx [] bs).1, (scanGo mx [] bs).2)
      else scanGo mx (b :: cur) bs := rfl

theorem scanGo_eq_toksGo (mx : Nat) : ∀ (bs cur : List Nat),
    10 ∉ cur → 13 ∉ cur → 13 ∉ bs →
    (∀ u, u <:+: (cur.reverse ++ bs) → 10 ∉ u → u.length < mx) →
    scanGo mx cur bs = (toksGo cur bs, none)
  | [], cur, h10, h13, _, hrun => by
    rw [scanGo_nil, toksGo_nil]
    by_cases hcur : cur.isEmpty
    · simp [hcur]
    · have hlen : cur.length < mx := by
        have := hrun cur.reverse ((List.prefix_append _ _).isInfix)
          (by simp [h10])
        simpa using this
      rw [if_neg hcur, if_neg hcur, if_neg (not_le.mpr hlen)]
      rw [dropCR_of_no_cr (by simp [h13])]
  | b :: bs, cur, h10, h13, h13b, hrun => by
    rw [scanGo_cons, toksGo_cons]
    by_cases hb : b = 10
    · have hlen : cur.length < mx := by
        have := hrun cur.reverse ((List.prefix_append _ _).isInfix)
          (by simp [h10])
        simpa using this
      rw [if_pos hb, if_pos hb, if_neg (not_le.mpr hlen)]
      rw [scanGo_eq_toksGo mx bs [] (by simp) (by simp) (fun hc => h13b (by simp [hc]))]
      · rw [dropCR_of_no_cr (by simp [h13])]
      · intro u hu hu10
        refine hrun u ?_ hu10
        subst hb
        refine hu.trans ?_
        refine (List.IsSuffix.isInfix ?_)
        exact ⟨cur.reverse ++ [10], by simp⟩
    · rw [if_neg hb, if_neg hb]
      have hb13 : b ≠ 13 := fun hc => h13b (by simp [hc])
      refine scanGo_eq_toksGo mx bs (b :: cur)
        (by simp only [List.mem_cons, not_or]; exact ⟨fun hc => hb hc.symm, h10⟩)
        (by simp only [List.mem_cons, not_or]; exact ⟨fun hc => hb13 hc.symm, h13⟩)
        (fun hc => h13b (by simp [hc])) ?_
      intro u hu hu10
      refine hrun u ?_ hu10
      have : (b :: cur).reverse ++ bs = cur.reverse ++ b :: bs := by simp
      rwa [this] at hu

/-- On CR-free data whose newline-free infixes are shorter than the token
bound, the bufio scanner succeeds and produces exactly the forward lines. -/
theorem scanTokens_eq_toks {mx : Nat} {bs : List Nat} (h13 : 13 ∉ bs)
    (hrun : ∀ u, u <:+: bs → 10 ∉ u → u.length < mx) :
    scanTokens mx bs = (toks bs, none) := by
  rw [scanTokens, toks]
  exact scanGo_eq_toksGo mx bs [] (by simp) (by simp) h13 (by simpa using hrun)

/-- Every token the scanner delivers is newline-free. -/
theorem scanGo_no_nl (mx : Nat) : ∀ (bs cur : List Nat), 10 ∉ cur →
    ∀ l ∈ (scanGo mx cur bs).1, 10 ∉ l
  | [], cur, h10 => by
    rw [scanGo_nil]
    split
    · simp
    · split
      · simp
      · intro l hl
        simp only [List.mem_singleton] at hl
        subst hl
        exact not_mem_dropCR (by simp [h10])
  | b :: bs, cur, h10 => by
    rw [scanGo_cons]
    split
    · split
      · simp
      · intro l hl
        rcases List.mem_cons.mp hl with rfl | hl
        · exact not_mem_dropCR (by simp [h10])
        · exact scanGo_no_nl mx bs [] (by simp) l hl
    · intro l hl
      refine scanGo_no_nl mx bs (b :: cur) ?_ l hl
      rename_i hb
      simp only [List.mem_cons, not_or]
      exact ⟨fun hc => hb hc.symm, h10⟩

/-- A newline-free span at least as long as the token bound makes the
scanner fail with `tooLong` and deliver nothing from that point on. -/
theorem scanGo_tooLong (mx : Nat) (hmx : 0 < mx) : ∀ (bs cur : List Nat),
    10 ∉ bs → mx ≤ cur.length + bs.length →
    scanGo mx cur bs = ([], some Err.tooLong)
  | [], cur, _, hlen => by
    rw [scanGo_nil]
    have hcur : ¬ cur.isEmpty := by
      simp only [List.length_nil, Nat.add_zero] at hlen
      simp only [List.isEmpty_iff]
      intro hc
      subst hc
      simp at hlen
      omega
    rw [if_neg hcur, if_pos (by simpa using hlen)]
  | b :: bs, cur, h10, hlen => by
    rw [scanGo_cons]
    have hb : b ≠ 10 := fun hc => h10 (by simp [hc])
    rw [if_neg hb]
    refine scanGo_tooLong mx hmx bs (b :: cur) (fun hc => h10 (by simp [hc])) ?_
    simp only [List.length_cons] at hlen ⊢
    omega

/-! ## Evaluating one round of the traversal over a pure file -/

theorem append_pending (x s : List Nat) :
    (if 0 < s.length then x ++ s else x) = x ++ s := by
  cases s <;> simp

/-- A `scan` is a refusal once an error has been recorded. -/
theorem scan_err {r : reverser} (e : Err) (h : r.lastError = some e)
    (ra : Int → Nat → List Nat × Option Err) : r.scan ra = (false, r) := by
  rw [reverser.scan, if_pos (by simp [h])]

/-- A `scan` returns `false` when the cursor is already exhausted. -/
theorem scan_stop {r : reverser} (ra : Int → Nat → List Nat × Option Err)
    (h : r.lastError = none)
    (hg : r.chunker.fileLength = 0 ∨ r.chunker.nextOffset < 0) :
    (r.scan ra).1 = false := by
  rw [reverser.scan, if_neg (by simp [h])]
  simp only [chunkReader.read, if_pos hg]
  simp

/-- One successful `scan` over the pure file model: reads the chunk at
offset `o`, appends the pending suffix, backs the offset up by the chunk
size, and reports no error. -/
theorem scan_round (data : List Nat) {c o : Nat} (hc : 1 ≤ c)
    (ck sfx : List Nat) (ho : o < data.length) :
    reverser.scan
      ⟨c, ⟨(data.length : Int), (o : Int), c, none⟩, ck, none, sfx⟩
      (readAtPure data) =
      (true, ⟨c, ⟨(data.length : Int), (o : Int) - (c : Int), c, none⟩,
        (data.drop o).take c ++ sfx, none, sfx⟩) := by
  have hpos : 0 < data.length := Nat.lt_of_le_of_lt (Nat.zero_le o) ho
  rw [reverser.scan]
  dsimp only
  rw [if_neg (by simp)]
  rw [chunkReader.read]
  dsimp only
  rw [if_neg (by omega)]
  rw [if_neg (by simp)]
  rw [readAtPure, if_neg (by omega), if_neg (by omega)]
  simp only [Int.toNat_natCast]
  have hlen : ((data.drop o).take c).length = min c (data.length - o) := by
    simp [List.length_take, List.length_drop]
  have hfin :
      (if 0 < ((data.drop o).take c).length ∧
          (if ((data.drop o).take c).length < c then some Err.eof else none) =
            some Err.eof then none
        else (if ((data.drop o).take c).length < c then some Err.eof else none)) =
        none := by
    rw [hlen]
    by_cases hx : min c (data.length - o) < c
    · rw [if_pos hx, if_pos ⟨by omega, rfl⟩]
    · rw [if_neg hx, if_neg (by simp)]
  simp only [hfin]
  rw [append_pending]
  simp

/-- One `lines` call on a cleanly scanned chunk when the cursor is not yet
exhausted: the first candidate line is held back (encoded) and the rest is
delivered reversed. -/
theorem lines_round_mid (csz : Nat) (chk : chunkReader) (ck sfx : List Nat)
    {t0 : List Nat} {ts : List (List Nat)}
    (hscan : scanTokens bufioMaxScanTokenSize ck = (t0 :: ts, none))
    (hpeek : chk.peekEOF = false) :
    reverser.lines ⟨csz, chk, ck, none, sfx⟩ =
      (ts.reverse, ⟨csz, chk, ck, none, suffixEnc t0⟩) := by
  rw [reverser.lines]
  dsimp only
  rw [hscan]
  dsimp only
  rw [reverser.saveLineSuffix.eq_def]
  dsimp only
  rw [if_neg (by simp [hpeek])]
  simp only [suffixEnc]

/-- One `lines` call on a cleanly scanned chunk when the cursor is
exhausted: the whole batch is delivered reversed and no suffix is kept. -/
theorem lines_round_last (csz : Nat) (chk : chunkReader) (ck sfx : List Nat)
    {ls : List (List Nat)}
    (hscan : scanTokens bufioMaxScanTokenSize ck = (ls, none))
    (hpeek : chk.peekEOF = true) :
    reverser.lines ⟨csz, chk, ck, none, sfx⟩ =
      (ls.reverse, ⟨csz, chk, ck, none, []⟩) := by
  rw [reverser.lines]
  dsimp only
  rw [hscan]
  dsimp only
  rw [reverser.saveLineSuffix.eq_def]
  dsimp only
  rw [if_pos (by simp [hpeek])]

theorem pre_append_left {x y : List Nat} (B : List Nat) (h : x <+: y) :
    B ++ x <+: B ++ y := by
  obtain ⟨t, rfl⟩ := h
  exact ⟨t, by simp⟩

/-- The assembled span of one round (current chunk bytes plus pending
suffix) accounts for the lines of the file tail from the current offset,
and is an initial segment of that tail. -/
theorem span_facts (data : List Nat) {c o : Nat} (hc : 1 ≤ c) {s : List Nat}
    {R : List (List Nat)}
    (hsuf : (data.length ≤ o + c ∧ s = [] ∧ R = []) ∨
      (o + c < data.length ∧
        ∃ f, toks (data.drop (o + c)) = f :: R ∧ s = suffixEnc f)) :
    toks ((data.drop o).take c ++ s) ++ R = toks (data.drop o) ∧
    ((data.drop o).take c ++ s) <+: data.drop o := by
  rcases hsuf with ⟨hge, rfl, rfl⟩ | ⟨hlt, f, htoks, rfl⟩
  · have hB : (data.drop o).take c = data.drop o :=
      List.take_of_length_le (by simp only [List.length_drop]; omega)
    constructor
    · rw [hB, List.append_nil, List.append_nil]
    · rw [hB, List.append_nil]
  · have h1 : List.drop c (List.drop o data) = List.drop (o + c) data := by
      rw [List.drop_drop, Nat.add_comm]
    have hsplit : (data.drop o).take c ++ data.drop (o + c) = data.drop o := by
      rw [← h1, List.take_append_drop]
    constructor
    · have hs := toks_stitch ((data.drop o).take c) htoks
      rwa [hsplit] at hs
    · have hs := pre_append_left ((data.drop o).take c) (suffixEnc_pre htoks)
      rwa [hsplit] at hs

theorem traverse_succ_true (ra : Int → Nat → List Nat × Option Err)
    (fuel : Nat) (r r1 : reverser) (batch : List (List Nat)) (r2 : reverser)
    (hscan : r.scan ra = (true, r1)) (hlines : r1.lines = (batch, r2)) :
    (traverse ra (fuel + 1) r).1 = batch ++ (traverse ra fuel r2).1 := by
  simp only [traverse, hscan, hlines]
  simp

theorem traverse_succ_false (ra : Int → Nat → List Nat × Option Err)
    (fuel : Nat) (r : reverser) (hscan : (r.scan ra).1 = false) :
    (traverse ra (fuel + 1) r).1 = [] := by
  simp only [traverse, hscan, Bool.false_eq_true, if_false]

/-- The central invariant of the backward traversal over a CR-free file
with bounded line lengths.  At entry the cursor sits at the chunk-aligned
offset `c * k`, no error has occurred, and the pending suffix `sfx`
together with the already-extracted lines `R` accounts for the lines of
the processed tail `data.drop (c * k + c)`.  The rest of the traversal
delivers, in reverse, exactly the remaining lines of `data`. -/
theorem traverse_inv (data : List Nat) (c : Nat) (hc : 1 ≤ c) (h13 : 13 ∉ data)
    (hrun : ∀ u, u <:+: data → 10 ∉ u → u.length < bufioMaxScanTokenSize) :
    ∀ (k : Nat) (ck sfx : List Nat) (R : List (List Nat)) (fuel : Nat),
      c * k < data.length →
      k + 2 ≤ fuel →
      ((data.length ≤ c * k + c ∧ sfx = [] ∧ R = []) ∨
        (c * k + c < data.length ∧
          ∃ f, toks (data.drop (c * k + c)) = f :: R ∧ sfx = suffixEnc f)) →
      (traverse (readAtPure data) fuel
          ⟨c, ⟨(data.length : Int), ((c * k : Nat) : Int), c, none⟩,
            ck, none, sfx⟩).1.reverse ++ R = toks data := by
  intro k
  induction k with
  | zero =>
    intro ck sfx R fuel hlt hfuel hsuf
    obtain ⟨m, rfl⟩ : ∃ m, fuel = m + 2 := ⟨fuel - 2, by omega⟩
    obtain ⟨KEQ, SPRE⟩ := span_facts data hc hsuf
    have hround := scan_round data hc ck sfx hlt
    have hSINF : ((data.drop (c * 0)).take c ++ sfx) <:+: data :=
      (SPRE.isInfix).trans (List.drop_suffix _ _).isInfix
    have hbridge : scanTokens bufioMaxScanTokenSize
        ((data.drop (c * 0)).take c ++ sfx) =
        (toks ((data.drop (c * 0)).take c ++ sfx), none) :=
      scanTokens_eq_toks (fun hm => h13 (List.Sublist.mem hm hSINF.sublist))
        (fun u hu h10u => hrun u (hu.trans hSINF) h10u)
    have hpeek : (⟨(data.length : Int), ((c * 0 : Nat) : Int) - (c : Int), c,
        none⟩ : chunkReader).peekEOF = true := by
      simp only [chunkReader.peekEOF, decide_eq_true_eq]
      right
      simp only [Nat.mul_zero, Nat.cast_zero]
      omega
    have hlines := lines_round_last c
      ⟨(data.length : Int), ((c * 0 : Nat) : Int) - (c : Int), c, none⟩
      ((data.drop (c * 0)).take c ++ sfx) sfx hbridge hpeek
    rw [traverse_succ_true (readAtPure data) (m + 1) _ _ _ _ hround hlines]
    rw [traverse_succ_false (readAtPure data) m
      (⟨c, ⟨(data.length : Int), ((c * 0 : Nat) : Int) - (c : Int), c, none⟩,
        (data.drop (c * 0)).take c ++ sfx, none, []⟩)
      (scan_stop _ rfl (Or.inr (show ((c * 0 : Nat) : Int) - (c : Int) < 0 by
        simp only [Nat.mul_zero, Nat.cast_zero]; omega)))]
    rw [List.append_nil, List.reverse_reverse]
    simpa only [Nat.mul_zero, List.drop_zero] using KEQ
  | succ k ih =>
    intro ck sfx R fuel hlt hfuel hsuf
    have hms : c * (k + 1) = c * k + c := Nat.mul_succ c k
    rw [hms] at hlt hsuf ⊢
    obtain ⟨q, hq⟩ : ∃ q, q = c * k := ⟨c * k, rfl⟩
    rw [← hq] at hlt hsuf ih ⊢
    obtain ⟨m, rfl⟩ : ∃ m, fuel = m + 1 := ⟨fuel - 1, by omega⟩
    obtain ⟨KEQ, SPRE⟩ := span_facts data hc hsuf
    have hround := scan_round data hc ck sfx hlt
    have hSINF : ((data.drop (q + c)).take c ++ sfx) <:+: data :=
      (SPRE.isInfix).trans (List.drop_suffix _ _).isInfix
    have hbridge : scanTokens bufioMaxScanTokenSize
        ((data.drop (q + c)).take c ++ sfx) =
        (toks ((data.drop (q + c)).take c ++ sfx), none) :=
      scanTokens_eq_toks (fun hm => h13 (List.Sublist.mem hm hSINF.sublist))
        (fun u hu h10u => hrun u (hu.trans hSINF) h10u)
    have hspan_ne : (data.drop (q + c)).take c ++ sfx ≠ [] := by
      have hpos : 0 < ((data.drop (q + c)).take c).length := by
        simp only [List.length_take, List.length_drop]
        omega
      simp only [ne_eq, List.append_eq_nil, not_and]
      intro hcon
      rw [hcon] at hpos
      simp at hpos
    obtain ⟨t0, ts, htoks_sp⟩ : ∃ t0 ts,
        toks ((data.drop (q + c)).take c ++ sfx) = t0 :: ts := by
      cases htk : toks ((data.drop (q + c)).take c ++ sfx) with
      | nil => exact absurd htk (toks_ne_nil hspan_ne)
      | cons a l => exact ⟨a, l, rfl⟩
    have hpeek : (⟨(data.length : Int), ((q + c : Nat) : Int) - (c : Int), c,
        none⟩ : chunkReader).peekEOF = false := by
      simp only [chunkReader.peekEOF, decide_eq_false_iff_not, not_or, not_lt]
      have hpos : 0 < data.length := Nat.lt_of_le_of_lt (Nat.zero_le _) hlt
      constructor
      · intro hcon
        have hL : data.length = 0 := by exact_mod_cast hcon
        omega
      · push_cast
        omega
    have hlines := lines_round_mid c
      ⟨(data.length : Int), ((q + c : Nat) : Int) - (c : Int), c, none⟩
      ((data.drop (q + c)).take c ++ sfx) sfx (by rw [hbridge, htoks_sp]) hpeek
    rw [traverse_succ_true (readAtPure data) m _ _ _ _ hround hlines]
    have hoff : ((q + c : Nat) : Int) - (c : Int) = ((q : Nat) : Int) := by
      push_cast
      ring
    rw [hoff]
    rw [List.reverse_append, List.reverse_reverse, List.append_assoc]
    refine ih ((data.drop (q + c)).take c ++ sfx) (suffixEnc t0) (ts ++ R) m
      (by omega) (by omega) (Or.inr ⟨hlt, t0, ?_, rfl⟩)
    rw [← KEQ, htoks_sp]
    rfl


/-! ## Full-traversal correctness -/

/-- Empty file: the traversal delivers nothing. -/
theorem fullTraverse_nil (csize : Nat) : fullTraverse [] csize = [] := by
  rw [fullTraverse]
  have h2 : ([] : List Nat).length / csize + 2 = 1 + 1 := by simp
  rw [h2]
  refine traverse_succ_false _ 1 _ (scan_stop _ rfl (Or.inl ?_))
  show (newChunkReader csize 0).fileLength = 0
  rw [newChunkReader]
  simp

/-- Reversing the concatenation of all batches of a full traversal yields
the file's forward lines, for any chunk size, provided the file has no
carriage-return byte and every newline-free span fits the scanner bound. -/
theorem fullTraverse_eq (data : List Nat) (csize : Nat) (hc : 1 ≤ csize)
    (h13 : 13 ∉ data)
    (hrun : ∀ u, u <:+: data → 10 ∉ u → u.length < bufioMaxScanTokenSize) :
    (fullTraverse data csize).reverse = toks data := by
  rcases eq_or_ne data [] with rfl | hne
  · rw [fullTraverse_nil]
    rfl
  · have hL : 0 < data.length := List.length_pos.mpr hne
    rw [fullTraverse]
    by_cases hmod : data.length % csize = 0
    · obtain ⟨mq, hmq0⟩ : ∃ mq, data.length = csize * mq :=
        ⟨data.length / csize, by
          rw [Nat.mul_comm]
          exact (Nat.div_mul_cancel (Nat.dvd_of_mod_eq_zero hmod)).symm⟩
      have hcpos : 0 < csize := hc
      obtain ⟨k0, rfl⟩ : ∃ k0, mq = k0 + 1 := by
        refine ⟨mq - 1, ?_⟩
        rcases Nat.eq_zero_or_pos mq with hz | hp
        · rw [hz, Nat.mul_zero] at hmq0
          omega
        · omega
      have hmq : data.length = csize * k0 + csize := by
        rw [hmq0, Nat.mul_succ]
      have hdiv : data.length / csize = k0 + 1 := by
        rw [hmq0]
        exact Nat.mul_div_cancel_left (k0 + 1) hcpos
      have hoff : (data.length : Int) - (csize : Int) = ((csize * k0 : Nat) : Int) := by
        rw [hmq]
        push_cast
        ring
      have hstate : newReverser csize data.length =
          ⟨csize, ⟨(data.length : Int), ((csize * k0 : Nat) : Int), csize, none⟩,
            [], none, []⟩ := by
        rw [newReverser, newChunkReader, if_neg (by omega), if_pos hmod, hoff]
      rw [hstate, hdiv]
      have hlt : csize * k0 < data.length := by
        rw [hmq]
        exact Nat.lt_add_of_pos_right (by omega)
      have := traverse_inv data csize hc h13 hrun k0 [] [] [] (k0 + 1 + 2)
        hlt (by omega) (Or.inl ⟨le_of_eq hmq, rfl, rfl⟩)
      simpa only [List.append_nil] using this
    · have hdm := Nat.div_add_mod data.length csize
      obtain ⟨q, hq⟩ : ∃ q, data.length / csize = q := ⟨_, rfl⟩
      obtain ⟨r0, hr0⟩ : ∃ r0, data.length % csize = r0 := ⟨_, rfl⟩
      rw [hq, hr0] at hdm
      rw [hr0] at hmod
      have hmlt : r0 < csize := by
        rw [← hr0]
        exact Nat.mod_lt _ (by omega)
      have hoff : (data.length : Int) - ((r0 : Nat) : Int) = ((csize * q : Nat) : Int) := by
        rw [← hdm]
        push_cast
        ring
      have hstate : newReverser csize data.length =
          ⟨csize, ⟨(data.length : Int), ((csize * q : Nat) : Int), csize, none⟩,
            [], none, []⟩ := by
        rw [newReverser, newChunkReader, if_neg (by omega), hr0, if_neg hmod, hoff]
      rw [hstate, hq]
      have hlt : csize * q < data.length := by
        rw [← hdm]
        exact Nat.lt_add_of_pos_right (by omega)
      have hge : data.length ≤ csize * q + csize := by
        rw [← hdm]
        exact Nat.add_le_add_left (le_of_lt hmlt) _
      have := traverse_inv data csize hc h13 hrun q [] [] [] (q + 2)
        hlt (by omega) (Or.inl ⟨hge, rfl, rfl⟩)
      simpa only [List.append_nil] using this

/-- Every newline-free infix of a list shorter than the bound is itself
shorter than the bound; lets concrete witnesses discharge the line-length
hypothesis. -/
theorem runs_of_short {mx : Nat} {bs : List Nat} (h : bs.length < mx) :
    ∀ u, u <:+: bs → 10 ∉ u → u.length < mx :=
  fun _ hu _ => Nat.lt_of_le_of_lt hu.length_le h

/-! ## Claim theorems -/

/-- C1 (amended): for every chunk size at least 1 and every file contents
that contains no carriage-return byte and whose newline-free spans are all
shorter than the scanner's maximum token size, the full traversal
(repeated `scan` until false, collecting each `lines` batch in delivery
order) produces a sequence of lines whose reversal equals the file's lines
in true forward order, each line exactly once; moreover that forward order
is exactly what the bufio scanner itself produces on the whole file. -/
theorem c1_reverse_traversal_forward_order (data : List Nat) (csize : Nat)
    (hc : 1 ≤ csize) (h13 : 13 ∉ data)
    (hrun : ∀ u, u <:+: data → 10 ∉ u → u.length < bufioMaxScanTokenSize) :
    (fullTraverse data csize).reverse = toks data ∧
    (scanTokens bufioMaxScanTokenSize data).1 = toks data := by
  refine ⟨fullTraverse_eq data csize hc h13 hrun, ?_⟩
  rw [scanTokens_eq_toks h13 hrun]

theorem c1_witness :
    (fullTraverse [97, 10, 98] 2).reverse = toks [97, 10, 98] ∧
    (scanTokens bufioMaxScanTokenSize [97, 10, 98]).1 = toks [97, 10, 98] :=
  c1_reverse_traversal_forward_order [97, 10, 98] 2 (by decide) (by decide)
    (runs_of_short (by decide))

/-- C1 counterexample: the file `"X\r\r\n"` read with chunk size 1
delivers the line `"X"`, while its true forward lines (as the bufio
scanner itself splits them) are `["X\r"]`: reversing the combined output
does not reproduce the file's lines.  The pending suffix is taken from
`scanner.Text()` which has already had a trailing carriage return
stripped, so the carriage return is dropped twice. -/
theorem c1_counterexample :
    fullTraverse [88, 13, 13, 10] 1 = [[88]] ∧
    toks [88, 13, 13, 10] = [[88, 13, 13]] ∧
    (scanTokens bufioMaxScanTokenSize [88, 13, 13, 10]).1 = [[88, 13]] ∧
    (fullTraverse [88, 13, 13, 10] 1).reverse ≠ toks [88, 13, 13, 10] ∧
    (fullTraverse [88, 13, 13, 10] 1).reverse ≠
      (scanTokens bufioMaxScanTokenSize [88, 13, 13, 10]).1 := by
  refine ⟨by decide, by decide, by decide, by decide, by decide⟩

/-- C2 (amended): for a file with no carriage-return byte and all
newline-free spans shorter than the scanner bound, any two chunk sizes at
least 1 produce identical full-traversal line sequences. -/
theorem c2_chunk_size_independence (data : List Nat) (c1 c2 : Nat)
    (hc1 : 1 ≤ c1) (hc2 : 1 ≤ c2) (h13 : 13 ∉ data)
    (hrun : ∀ u, u <:+: data → 10 ∉ u → u.length < bufioMaxScanTokenSize) :
    fullTraverse data c1 = fullTraverse data c2 := by
  have h1 := fullTraverse_eq data c1 hc1 h13 hrun
  have h2 := fullTraverse_eq data c2 hc2 h13 hrun
  exact List.reverse_injective (h1.trans h2.symm)

theorem c2_witness : fullTraverse [97, 10, 98] 1 = fullTraverse [97, 10, 98] 3 :=
  c2_chunk_size_independence [97, 10, 98] 1 3 (by decide) (by decide) (by decide)
    (runs_of_short (by decide))

/-- C2 counterexample: on the file `"X\r\r\n"` chunk size 1 yields
`["X"]` while chunk size 4 yields `["X\r"]`. -/
theorem c2_counterexample :
    fullTraverse [88, 13, 13, 10] 1 ≠ fullTraverse [88, 13, 13, 10] 4 := by
  decide

/-- The error normalization performed by `reverser.err` on a recorded
error: `eof` presents as `none`, everything else passes through. -/
theorem err_spec (r : reverser) {e : Err} (h : r.lastError = some e) :
    (r.err = none ↔ e = Err.eof) ∧ (e ≠ Err.eof → r.err = some e) := by
  rw [reverser.err, h]
  by_cases he : e = Err.eof
  · subst he
    simp
  · rw [if_neg (by simp [he])]
    simp [he]

/-- C4: when a processed chunk does not reach file start and its first
candidate line is empty (the chunk began exactly at a line terminator),
the retained pending suffix is a single newline byte and the empty
candidate is removed from the batch; consequently the file
`"a\n\nb\n"` traversed with chunk size 1 delivers exactly
`["b", "", "a"]`, the embedded empty line neither dropped nor merged. -/
theorem c4_empty_first_candidate (r : reverser) (rest : List (List Nat))
    (hpeek : r.chunker.peekEOF = false) :
    (r.saveLineSuffix ([] :: rest)).2.lineSuffix = [10] ∧
    (r.saveLineSuffix ([] :: rest)).1 = rest ∧
    fullTraverse [97, 10, 10, 98, 10] 1 = [[98], [], [97]] := by
  refine ⟨?_, ?_, by decide⟩ <;> simp [reverser.saveLineSuffix, hpeek]

theorem c4_witness :
    (((⟨1, ⟨5, 3, 1, none⟩, [], none, []⟩ : reverser).saveLineSuffix
        ([] :: [[97]])).2.lineSuffix = [10] ∧
      ((⟨1, ⟨5, 3, 1, none⟩, [], none, []⟩ : reverser).saveLineSuffix
        ([] :: [[97]])).1 = [[97]] ∧
      fullTraverse [97, 10, 10, 98, 10] 1 = [[98], [], [97]]) :=
  c4_empty_first_candidate ⟨1, ⟨5, 3, 1, none⟩, [], none, []⟩ [[97]] (by decide)

/-- C6: whenever `scan` returns false an internal condition is recorded,
and the public `err` is `none` exactly when that condition was
end-of-data; any other recorded error is returned unchanged. -/
theorem c6_err_normalization (r : reverser)
    (ra : Int → Nat → List Nat × Option Err)
    (hfalse : (r.scan ra).1 = false) :
    ∃ e, (r.scan ra).2.lastError = some e ∧
      ((r.scan ra).2.err = none ↔ e = Err.eof) ∧
      (e ≠ Err.eof → (r.scan ra).2.err = some e) := by
  have hsome : ∃ e, (r.scan ra).2.lastError = some e := by
    by_cases h : r.lastError = none
    · rw [reverser.scan, if_neg (by simp [h])] at hfalse ⊢
      dsimp only at hfalse ⊢
      cases hx : (r.chunker.read ra r.chunkSize).1.2 with
      | none =>
        rw [hx] at hfalse
        simp at hfalse
      | some e => exact ⟨e, rfl⟩
    · obtain ⟨e', he'⟩ : ∃ e', r.lastError = some e' := by
        cases hx : r.lastError with
        | none => exact absurd hx h
        | some e => exact ⟨e, rfl⟩
      rw [scan_err e' he']
      exact ⟨e', he'⟩
  obtain ⟨e, he⟩ := hsome
  exact ⟨e, he, err_spec _ he⟩

theorem c6_witness :
    ∃ e, ((newReverser 1 0).scan (readAtPure [])).2.lastError = some e ∧
      (((newReverser 1 0).scan (readAtPure [])).2.err = none ↔ e = Err.eof) ∧
      (e ≠ Err.eof → ((newReverser 1 0).scan (readAtPure [])).2.err = some e) :=
  c6_err_normalization (newReverser 1 0) (readAtPure []) (by decide)

/-- Every subsequent `read` of a cursor whose offset has gone negative
reports end of data, never touches the file, and never moves the
offset. -/
theorem readMany_exhausted : ∀ (ras : List (Int → Nat → List Nat × Option Err))
    (c : chunkReader), c.nextOffset < 0 →
    (∀ p ∈ (c.readMany ras).1, p = ([], some Err.eof)) ∧
    (c.readMany ras).2.nextOffset = c.nextOffset
  | [], c, h => ⟨by simp [chunkReader.readMany], rfl⟩
  | ra :: ras, c, h => by
    rw [chunkReader.readMany]
    dsimp only
    rw [chunkReader.read, if_pos (Or.inr h)]
    dsimp only
    obtain ⟨ih1, ih2⟩ :=
      readMany_exhausted ras { c with lastError := some Err.eof } h
    refine ⟨?_, ih2⟩
    intro p hp
    rcases List.mem_cons.mp hp with rfl | hp2
    · rfl
    · exact ih1 p hp2

/-- C5: every file-touching `read` with the configured-chunk-size buffer
backs the offset up by exactly the chunk size regardless of the bytes
returned; and once the offset is negative the cursor is permanently
exhausted: all further reads (with any underlying file behavior) return
end-of-data and the offset never moves again. -/
theorem c5_offset_invariants :
    (∀ (c : chunkReader) (ra : Int → Nat → List Nat × Option Err),
      ¬(c.fileLength = 0 ∨ c.nextOffset < 0) → c.lastError = none →
      (c.read ra c.chunkSize).2.nextOffset = c.nextOffset - (c.chunkSize : Int)) ∧
    (∀ (c : chunkReader) (ras : List (Int → Nat → List Nat × Option Err)),
      c.nextOffset < 0 →
      (∀ p ∈ (c.readMany ras).1, p = ([], some Err.eof)) ∧
      (c.readMany ras).2.nextOffset = c.nextOffset) := by
  constructor
  · intro c ra hg h
    rw [chunkReader.read, if_neg hg, if_neg (by simp [h])]
  · intro c ras h
    exact readMany_exhausted ras c h

theorem c5_witness :
    (((⟨5, 4, 2, none⟩ : chunkReader).read (readAtPure [0, 1, 2, 3, 4])
        2).2.nextOffset = (4 : Int) - (2 : Int)) ∧
    ((∀ p ∈ ((⟨5, -1, 2, none⟩ : chunkReader).readMany
        [readAtPure [0, 1, 2, 3, 4], readAtPure [0, 1, 2, 3, 4]]).1,
        p = ([], some Err.eof)) ∧
      ((⟨5, -1, 2, none⟩ : chunkReader).readMany
        [readAtPure [0, 1, 2, 3, 4], readAtPure [0, 1, 2, 3, 4]]).2.nextOffset =
        (-1 : Int)) :=
  ⟨c5_offset_invariants.1 ⟨5, 4, 2, none⟩ (readAtPure [0, 1, 2, 3, 4])
      (by decide) rfl,
    c5_offset_invariants.2 ⟨5, -1, 2, none⟩ _ (by decide)⟩

/-- C3 (amended): a recorded non-end-of-data error is returned by every
subsequent read made while the file is nonempty and the offset is still
non-negative, without consulting the file; a read after the offset has
gone negative instead reports end of data (also without file access); and
in the reverser a recorded error makes `scan` return false with the state
unchanged, `err` surfacing any non-end-of-data error as is. -/
theorem c3_sticky_error_amended :
    (∀ (c : chunkReader) (e : Err) (ra : Int → Nat → List Nat × Option Err)
        (blen : Nat), c.lastError = some e → c.fileLength ≠ 0 →
        0 ≤ c.nextOffset → c.read ra blen = (([], some e), c)) ∧
    (∀ (c : chunkReader) (ra : Int → Nat → List Nat × Option Err) (blen : Nat),
      c.nextOffset < 0 →
      c.read ra blen = (([], some Err.eof), { c with lastError := some Err.eof })) ∧
    (∀ (r : reverser) (e : Err) (ra : Int → Nat → List Nat × Option Err),
      r.lastError = some e →
      r.scan ra = (false, r) ∧ (e ≠ Err.eof → r.err = some e)) := by
  refine ⟨?_, ?_, ?_⟩
  · intro c e ra blen h hF hnn
    rw [chunkReader.read, if_neg (by push_neg; exact ⟨hF, by omega⟩),
      if_pos (by simp [h]), h]
  · intro c ra blen h
    rw [chunkReader.read, if_pos (Or.inr h)]
  · intro r e ra h
    exact ⟨scan_err e h ra, fun he => (err_spec r h).2 he⟩

theorem c3_witness :
    ((⟨3, 1, 1, some (Err.io 7)⟩ : chunkReader).read (readAtPure [0, 1, 2]) 1 =
      (([], some (Err.io 7)), ⟨3, 1, 1, some (Err.io 7)⟩)) ∧
    ((⟨3, -1, 1, some (Err.io 7)⟩ : chunkReader).read (readAtPure [0, 1, 2]) 1 =
      (([], some Err.eof), ⟨3, -1, 1, some Err.eof⟩)) ∧
    ((⟨1, ⟨3, 1, 1, none⟩, [], some (Err.io 7), []⟩ : reverser).scan
        (readAtPure [0, 1, 2]) =
      (false, ⟨1, ⟨3, 1, 1, none⟩, [], some (Err.io 7), []⟩)) ∧
    (⟨1, ⟨3, 1, 1, none⟩, [], some (Err.io 7), []⟩ : reverser).err =
      some (Err.io 7) :=
  ⟨c3_sticky_error_amended.1 ⟨3, 1, 1, some (Err.io 7)⟩ (Err.io 7)
      (readAtPure [0, 1, 2]) 1 rfl (by decide) (by decide),
    c3_sticky_error_amended.2.1 ⟨3, -1, 1, some (Err.io 7)⟩
      (readAtPure [0, 1, 2]) 1 (by decide),
    (c3_sticky_error_amended.2.2 ⟨1, ⟨3, 1, 1, none⟩, [], some (Err.io 7), []⟩
      (Err.io 7) (readAtPure [0, 1, 2]) rfl).1,
    (c3_sticky_error_amended.2.2 ⟨1, ⟨3, 1, 1, none⟩, [], some (Err.io 7), []⟩
      (Err.io 7) (readAtPure [0, 1, 2]) rfl).2 (by decide)⟩

/-- C3 counterexample: the claim says a non-end-of-data read error is
returned by *every* subsequent read.  With file length 1 and chunk size
1, an I/O error on the read at offset 0 still decrements the offset to
-1, so the next read returns end-of-data instead of the recorded error. -/
theorem c3_counterexample :
    ((((⟨1, 0, 1, none⟩ : chunkReader).read
          (fun _ _ => ([], some (Err.io 0))) 1).2.read
        (fun _ _ => ([], some (Err.io 0))) 1).1.2 = some Err.eof) ∧
    (((⟨1, 0, 1, none⟩ : chunkReader).read
        (fun _ _ => ([], some (Err.io 0))) 1).1.2 = some (Err.io 0)) ∧
    some Err.eof ≠ some (Err.io 0) := by
  refine ⟨rfl, rfl, by decide⟩

/-- Behavior of `lines` when the scanner fails on the assembled chunk:
the tokens recovered before the failure are still processed — the usual
suffix candidate is withheld unless the cursor is exhausted, the rest is
delivered reversed — the error is recorded, and any further `scan`
refuses. -/
theorem lines_err (r : reverser) {ls : List (List Nat)} {e : Err}
    (hscan : scanTokens bufioMaxScanTokenSize r.chunk = (ls, some e)) :
    (r.lines).1 = (if r.chunker.peekEOF then ls else ls.tail).reverse ∧
    (r.lines).2.lastError = some e ∧
    ∀ ra, ((r.lines).2.scan ra).1 = false := by
  rw [reverser.lines]
  dsimp only
  rw [hscan]
  dsimp only
  rw [reverser.saveLineSuffix.eq_def]
  dsimp only
  by_cases hpeek : r.chunker.peekEOF
  · rw [if_pos hpeek, if_pos hpeek]
    refine ⟨rfl, rfl, fun ra => ?_⟩
    rw [scan_err e rfl ra]
  · rw [if_neg hpeek, if_neg hpeek]
    cases ls with
    | nil =>
      refine ⟨rfl, rfl, fun ra => ?_⟩
      rw [scan_err e rfl ra]
    | cons s rest =>
      refine ⟨rfl, rfl, fun ra => ?_⟩
      rw [scan_err e rfl ra]

/-- A chunk whose text is `"x\n"` followed by a 65537-byte newline-free
run: the scanner recovers the line `"x"` and then fails with `tooLong`. -/
def c7chunk : List Nat := [120, 10] ++ List.replicate 65537 97

theorem scanTokens_c7chunk :
    scanTokens bufioMaxScanTokenSize c7chunk = ([[120]], some Err.tooLong) := by
  rw [scanTokens, c7chunk]
  show scanGo _ [] (120 :: 10 :: List.replicate 65537 97) = _
  rw [scanGo_cons, if_neg (by decide)]
  rw [scanGo_cons, if_pos rfl, if_neg (by decide)]
  rw [scanGo_tooLong bufioMaxScanTokenSize (by decide) (List.replicate 65537 97) []
    (by rw [List.mem_replicate]; decide)
    (by rw [List.length_replicate, List.length_nil]; decide)]
  decide

/-- C7 (amended): if line-splitting of the current assembled chunk fails,
the lines recovered before the failure are still delivered in that call's
reversed batch — minus the usual held-back first candidate when the chunk
does not reach file start — the error is recorded, and the next `scan`
returns false, so no further chunks are processed. -/
theorem c7_scan_error_truncation (r : reverser) (ls : List (List Nat)) (e : Err)
    (hscan : scanTokens bufioMaxScanTokenSize r.chunk = (ls, some e)) :
    (r.lines).1 = (if r.chunker.peekEOF then ls else ls.tail).reverse ∧
    (r.lines).2.lastError = some e ∧
    ∀ ra, ((r.lines).2.scan ra).1 = false :=
  lines_err r hscan

theorem c7_witness :
    ((⟨1, ⟨10, 5, 1, none⟩, c7chunk, none, []⟩ : reverser).lines).1 =
      (if (⟨10, 5, 1, none⟩ : chunkReader).peekEOF then [[120]]
        else [[120]].tail).reverse ∧
    ((⟨1, ⟨10, 5, 1, none⟩, c7chunk, none, []⟩ : reverser).lines).2.lastError =
      some Err.tooLong ∧
    ((((⟨1, ⟨10, 5, 1, none⟩, c7chunk, none, []⟩ : reverser).lines).2.scan
      (readAtPure [])).1 = false) :=
  ⟨(c7_scan_error_truncation ⟨1, ⟨10, 5, 1, none⟩, c7chunk, none, []⟩ [[120]]
      Err.tooLong scanTokens_c7chunk).1,
    (c7_scan_error_truncation ⟨1, ⟨10, 5, 1, none⟩, c7chunk, none, []⟩ [[120]]
      Err.tooLong scanTokens_c7chunk).2.1,
    (c7_scan_error_truncation ⟨1, ⟨10, 5, 1, none⟩, c7chunk, none, []⟩ [[120]]
      Err.tooLong scanTokens_c7chunk).2.2 (readAtPure [])⟩

/-- C7 counterexample to the claim as stated: on a chunk whose scanner
pass recovers the line `"x"` and then fails, with the cursor not at file
start, the delivered batch is empty — the recovered line is withheld as
the pending suffix and (because the traversal then stops) never
delivered. -/
theorem c7_counterexample :
    (scanTokens bufioMaxScanTokenSize c7chunk).1 = [[120]] ∧
    (scanTokens bufioMaxScanTokenSize c7chunk).2 = some Err.tooLong ∧
    ((⟨1, ⟨10, 5, 1, none⟩, c7chunk, none, []⟩ : reverser).lines).1 = [] := by
  have h := lines_err ⟨1, ⟨10, 5, 1, none⟩, c7chunk, none, []⟩ scanTokens_c7chunk
  refine ⟨by rw [scanTokens_c7chunk], by rw [scanTokens_c7chunk], ?_⟩
  rw [h.1]
  decide

/-- A `lines` call only ever changes the delivered batch, the recorded error and
the pending suffix; the cursor, the chunk bytes and the chunk size are
left untouched. -/
theorem lines_shape (csz : Nat) (chk : chunkReader) (ck : List Nat)
    (le : Option Err) (sfx : List Nat) :
    ∃ b le2 sfx2, reverser.lines ⟨csz, chk, ck, le, sfx⟩ =
      (b, ⟨csz, chk, ck, le2, sfx2⟩) := by
  rw [reverser.lines]
  dsimp only
  cases hsp : scanTokens bufioMaxScanTokenSize ck with
  | mk ls oe =>
    cases oe with
    | none =>
      dsimp only
      rw [reverser.saveLineSuffix.eq_def]
      dsimp only
      by_cases hpeek : chk.peekEOF
      · rw [if_pos hpeek]
        exact ⟨ls.reverse, le, [], rfl⟩
      · rw [if_neg hpeek]
        cases ls with
        | nil => exact ⟨[], le, [], rfl⟩
        | cons s rest => exact ⟨rest.reverse, le, if s = [] then [10] else s, rfl⟩
    | some e =>
      dsimp only
      rw [reverser.saveLineSuffix.eq_def]
      dsimp only
      by_cases hpeek : chk.peekEOF
      · rw [if_pos hpeek]
        exact ⟨ls.reverse, some e, [], rfl⟩
      · rw [if_neg hpeek]
        cases ls with
        | nil => exact ⟨[], some e, [], rfl⟩
        | cons s rest => exact ⟨rest.reverse, some e, if s = [] then [10] else s, rfl⟩

/-- The initial offset sits strictly below the file length for a nonempty
file. -/
theorem newOffset_lt (csize L : Nat) (hc : 1 ≤ csize) (hL : 0 < L) :
    (newChunkReader csize L).nextOffset < (L : Int) := by
  rw [newChunkReader]
  dsimp only
  rw [if_neg (by omega)]
  by_cases hm : L % csize = 0
  · rw [if_pos hm]
    omega
  · rw [if_neg hm]
    have hpos : 0 < L % csize := Nat.pos_of_ne_zero hm
    obtain ⟨r0, hr0⟩ : ∃ r0, L % csize = r0 := ⟨_, rfl⟩
    rw [hr0]
    rw [hr0] at hpos
    omega

/-- The initial offset is never negative. -/
theorem newOffset_nonneg (csize L : Nat) (hc : 1 ≤ csize) :
    0 ≤ (newChunkReader csize L).nextOffset := by
  rw [newChunkReader]
  dsimp only
  by_cases h0 : L = 0
  · rw [if_pos h0]
  · rw [if_neg h0]
    by_cases hm : L % csize = 0
    · rw [if_pos hm]
      have hdvd : csize ∣ L := Nat.dvd_of_mod_eq_zero hm
      have hle : csize ≤ L := Nat.le_of_dvd (by omega) hdvd
      omega
    · rw [if_neg hm]
      have hle : L % csize ≤ L := Nat.mod_le L csize
      obtain ⟨r0, hr0⟩ : ∃ r0, L % csize = r0 := ⟨_, rfl⟩
      rw [hr0]
      rw [hr0] at hle
      omega

/-- The initial offset is at most the last chunk-aligned position. -/
theorem newOffset_le_div (csize L : Nat) (hc : 1 ≤ csize) :
    (newChunkReader csize L).nextOffset ≤ ((csize * (L / csize) : Nat) : Int) := by
  obtain ⟨q, hq⟩ : ∃ q, L / csize = q := ⟨_, rfl⟩
  obtain ⟨r0, hr0⟩ : ∃ r0, L % csize = r0 := ⟨_, rfl⟩
  have hdm : csize * q + r0 = L := by
    rw [← hq, ← hr0]
    exact Nat.div_add_mod L csize
  obtain ⟨G, hG⟩ : ∃ G, csize * q = G := ⟨_, rfl⟩
  rw [hG] at hdm
  rw [newChunkReader]
  dsimp only
  rw [hq, hG, hr0]
  split_ifs with h0 hm
  · exact Int.natCast_nonneg G
  · omega
  · omega

/-- A `scan` on a clean state whose cursor is exhausted (empty file or
negative offset): reports no more data and records `eof`. -/
theorem scan_guard (csz : Nat) (chk : chunkReader) (ck sfx : List Nat)
    (ra : Int → Nat → List Nat × Option Err)
    (hg : chk.fileLength = 0 ∨ chk.nextOffset < 0) :
    reverser.scan ⟨csz, chk, ck, none, sfx⟩ ra =
      (false, ⟨csz, { chk with lastError := some Err.eof },
        (if 0 < sfx.length then ([] : List Nat) ++ sfx else []),
        some Err.eof, sfx⟩) := by
  rw [reverser.scan]
  dsimp only
  rw [if_neg (by simp)]
  rw [chunkReader.read]
  dsimp only
  rw [if_pos hg]
  rfl

theorem stepRound_true (ra : Int → Nat → List Nat × Option Err)
    (r r1 : reverser) (b : List (List Nat)) (r2 : reverser)
    (hscan : r.scan ra = (true, r1)) (hlines : r1.lines = (b, r2)) :
    stepRound ra r = r2 := by
  rw [stepRound, hscan]
  dsimp only
  rw [if_pos rfl, hlines]

theorem stepRound_false (ra : Int → Nat → List Nat × Option Err)
    (r r1 : reverser) (hscan : r.scan ra = (false, r1)) :
    stepRound ra r = r1 := by
  rw [stepRound, hscan]
  dsimp only
  rw [if_neg (by simp)]

/-- Invariant of the driver loop over the pure file model: the file
length never changes, the offset stays below the file length (for a
nonempty file), and either an error has been recorded (with the chunk
size preserved) or the reverser is in a clean state whose offset has
backed up by exactly one chunk size per completed round. -/
theorem iter_inv (data : List Nat) (csize : Nat) (hc : 1 ≤ csize) (j : Nat) :
    (iterRounds (readAtPure data) j (newReverser csize data.length)).chunker.fileLength
        = (data.length : Int) ∧
    (data.length = 0 ∨
      (iterRounds (readAtPure data) j (newReverser csize data.length)).chunker.nextOffset
        < (data.length : Int)) ∧
    (((iterRounds (readAtPure data) j (newReverser csize data.length)).lastError ≠ none ∧
        (iterRounds (readAtPure data) j (newReverser csize data.length)).chunkSize
          = csize) ∨
      ∃ ck sfx, iterRounds (readAtPure data) j (newReverser csize data.length) =
        ⟨csize, ⟨(data.length : Int),
          (newChunkReader csize data.length).nextOffset - (j : Int) * (csize : Int),
          csize, none⟩, ck, none, sfx⟩) := by
  induction j with
  | zero =>
    refine ⟨rfl, ?_, Or.inr ⟨[], [], ?_⟩⟩
    · rcases Nat.eq_zero_or_pos data.length with h0 | hpos
      · exact Or.inl h0
      · exact Or.inr (newOffset_lt csize data.length hc hpos)
    · show newReverser csize data.length = _
      rw [newReverser]
      simp only [Nat.cast_zero, zero_mul, sub_zero]
      rfl
  | succ j ih =>
    obtain ⟨hF, hlt2, hinv⟩ := ih
    rw [iterRounds]
    rcases hinv with ⟨hne, hcs⟩ | ⟨ck, sfx, heq⟩
    · obtain ⟨e, he⟩ : ∃ e,
          (iterRounds (readAtPure data) j (newReverser csize data.length)).lastError
            = some e := by
        cases hx : (iterRounds (readAtPure data) j
            (newReverser csize data.length)).lastError with
        | none => exact absurd hx hne
        | some e => exact ⟨e, rfl⟩
      rw [stepRound_false _ _ _ (scan_err e he (readAtPure data))]
      exact ⟨hF, hlt2, Or.inl ⟨hne, hcs⟩⟩
    · obtain ⟨off, hoff⟩ : ∃ off,
          (newChunkReader csize data.length).nextOffset - (j : Int) * (csize : Int)
            = off := ⟨_, rfl⟩
      rw [hoff] at heq
      rw [heq] at hlt2
      rw [heq]
      have hlt2' : data.length = 0 ∨ off < (data.length : Int) := hlt2
      by_cases hg : (data.length : Int) = 0 ∨ off < 0
      · rw [stepRound_false _ _ _
          (scan_guard csize ⟨(data.length : Int), off, csize, none⟩ ck sfx
            (readAtPure data) hg)]
        refine ⟨rfl, ?_, Or.inl ⟨by simp, rfl⟩⟩
        exact hlt2'
      · push_neg at hg
        obtain ⟨hL0, hnn⟩ := hg
        have hLpos : 0 < data.length := by
          rcases Nat.eq_zero_or_pos data.length with h0 | h
          · exact absurd (by exact_mod_cast h0) hL0
          · exact h
        have hofflt : off < (data.length : Int) := by
          rcases hlt2' with h0 | h
          · omega
          · exact h
        have htn : ((off.toNat : Nat) : Int) = off := Int.toNat_of_nonneg hnn
        have htlt : off.toNat < data.length := by omega
        have hsc := scan_round data hc ck sfx htlt
        rw [htn] at hsc
        obtain ⟨b, le2, sfx2, hsh⟩ := lines_shape csize
          ⟨(data.length : Int), off - (csize : Int), csize, none⟩
          ((data.drop off.toNat).take csize ++ sfx) none sfx
        rw [stepRound_true _ _ _ _ _ hsc hsh]
        refine ⟨rfl, ?_, ?_⟩
        · right
          show off - (csize : Int) < (data.length : Int)
          omega
        · cases le2 with
          | none =>
            right
            refine ⟨(data.drop off.toNat).take csize ++ sfx, sfx2, ?_⟩
            have hoffeq : off - (csize : Int) =
                (newChunkReader csize data.length).nextOffset -
                  (((j : Nat) + 1 : Nat) : Int) * (csize : Int) := by
              rw [← hoff]
              push_cast
              ring
            rw [hoffeq]
          | some e2 =>
            left
            exact ⟨by simp, rfl⟩

/-- C8: the advance loop terminates: over the pure file model the scan
call following `fileLength / chunkSize + 1` completed rounds returns
false, so `scan` returns false within `fileLength / chunkSize + 2`
calls — every file-touching read backs the offset up by one chunk size,
the offset starts below the file length, and reads stop once it is
negative. -/
theorem c8_termination (data : List Nat) (csize : Nat) (hc : 1 ≤ csize) :
    ((iterRounds (readAtPure data) (data.length / csize + 1)
        (newReverser csize data.length)).scan (readAtPure data)).1 = false := by
  obtain ⟨hF, hlt2, hinv⟩ := iter_inv data csize hc (data.length / csize + 1)
  rcases hinv with ⟨hne, _⟩ | ⟨ck, sfx, heq⟩
  · obtain ⟨e, he⟩ : ∃ e, (iterRounds (readAtPure data) (data.length / csize + 1)
        (newReverser csize data.length)).lastError = some e := by
      cases hx : (iterRounds (readAtPure data) (data.length / csize + 1)
          (newReverser csize data.length)).lastError with
      | none => exact absurd hx hne
      | some e => exact ⟨e, rfl⟩
    rw [scan_err e he]
  · rw [heq]
    refine scan_stop _ rfl (Or.inr ?_)
    show (newChunkReader csize data.length).nextOffset -
      ((data.length / csize + 1 : Nat) : Int) * (csize : Int) < 0
    have hle := newOffset_le_div csize data.length hc
    obtain ⟨q, hq⟩ : ∃ q, data.length / csize = q := ⟨_, rfl⟩
    rw [hq] at hle ⊢
    obtain ⟨G, hG⟩ : ∃ G, csize * q = G := ⟨_, rfl⟩
    rw [hG] at hle
    have hcast : ((q + 1 : Nat) : Int) * (csize : Int) =
        ((G : Nat) : Int) + (csize : Int) := by
      rw [← hG]
      push_cast
      ring
    rw [hcast]
    omega

theorem c8_witness :
    ((iterRounds (readAtPure [97, 10, 98])
        (([97, 10, 98] : List Nat).length / 1 + 1)
        (newReverser 1 ([97, 10, 98] : List Nat).length)).scan
      (readAtPure [97, 10, 98])).1 = false :=
  c8_termination [97, 10, 98] 1 (by decide)

/-- C9: construction places the first offset in `[0, fileLength)` for a
nonempty file, and at every point of the driver loop the cursor either
reports exhaustion on its next read (empty file or negative offset) or
its offset lies in `[0, fileLength)` — a positional read at a negative or
past-end offset is unreachable. -/
theorem c9_read_offsets (data : List Nat) (csize : Nat) (hc : 1 ≤ csize) :
    (0 < data.length →
      0 ≤ (newChunkReader csize data.length).nextOffset ∧
      (newChunkReader csize data.length).nextOffset < (data.length : Int)) ∧
    ∀ j : Nat,
      (iterRounds (readAtPure data) j
          (newReverser csize data.length)).chunker.fileLength = 0 ∨
      (iterRounds (readAtPure data) j
          (newReverser csize data.length)).chunker.nextOffset < 0 ∨
      (0 ≤ (iterRounds (readAtPure data) j
          (newReverser csize data.length)).chunker.nextOffset ∧
        (iterRounds (readAtPure data) j
            (newReverser csize data.length)).chunker.nextOffset <
          (iterRounds (readAtPure data) j
            (newReverser csize data.length)).chunker.fileLength) := by
  constructor
  · intro hL
    exact ⟨newOffset_nonneg csize data.length hc,
      newOffset_lt csize data.length hc hL⟩
  · intro j
    obtain ⟨hF, hlt2, _⟩ := iter_inv data csize hc j
    rcases hlt2 with h0 | hlt
    · left
      rw [hF]
      exact_mod_cast h0
    · by_cases hneg : (iterRounds (readAtPure data) j
          (newReverser csize data.length)).chunker.nextOffset < 0
      · exact Or.inr (Or.inl hneg)
      · refine Or.inr (Or.inr ⟨by omega, ?_⟩)
        rw [hF]
        exact hlt

theorem c9_witness :
    (0 ≤ (newChunkReader 1 ([97, 10, 98] : List Nat).length).nextOffset ∧
      (newChunkReader 1 ([97, 10, 98] : List Nat).length).nextOffset <
        (([97, 10, 98] : List Nat).length : Int)) ∧
    ((iterRounds (readAtPure [97, 10, 98]) 2
        (newReverser 1 ([97, 10, 98] : List Nat).length)).chunker.fileLength = 0 ∨
      (iterRounds (readAtPure [97, 10, 98]) 2
        (newReverser 1 ([97, 10, 98] : List Nat).length)).chunker.nextOffset < 0 ∨
      (0 ≤ (iterRounds (readAtPure [97, 10, 98]) 2
          (newReverser 1 ([97, 10, 98] : List Nat).length)).chunker.nextOffset ∧
        (iterRounds (readAtPure [97, 10, 98]) 2
            (newReverser 1 ([97, 10, 98] : List Nat).length)).chunker.nextOffset <
          (iterRounds (readAtPure [97, 10, 98]) 2
            (newReverser 1 ([97, 10, 98] : List Nat).length)).chunker.fileLength)) :=
  ⟨(c9_read_offsets [97, 10, 98] 1 (by decide)).1 (by decide),
    (c9_read_offsets [97, 10, 98] 1 (by decide)).2 2⟩

/-- The suffix extraction never invents lines: every line it returns was
among the scanned candidates. -/
theorem save_subset (r : reverser) (ls : List (List Nat)) :
    ∀ l ∈ (r.saveLineSuffix ls).1, l ∈ ls := by
  rw [reverser.saveLineSuffix.eq_def]
  by_cases hpeek : r.chunker.peekEOF
  · rw [if_pos hpeek]
    intro l hl
    exact hl
  · rw [if_neg hpeek]
    cases ls with
    | nil =>
      intro l hl
      exact absurd hl (by simp)
    | cons s rest =>
      intro l hl
      exact List.mem_cons_of_mem s hl

/-- Every line a `lines` call delivers is newline-free. -/
theorem lines_no_nl (r : reverser) : ∀ l ∈ (r.lines).1, (10 : Nat) ∉ l := by
  intro l hl
  rw [reverser.lines] at hl
  dsimp only at hl
  rw [List.mem_reverse] at hl
  have hl2 := save_subset _ _ l hl
  exact scanGo_no_nl bufioMaxScanTokenSize r.chunk [] (by simp) l hl2

/-- C10: no string delivered in any batch of any traversal contains a
newline byte: terminators are stripped during scanning, and the newline
byte substituted as a pending suffix is only appended to raw chunk bytes
and re-split, never emitted inside a delivered line. -/
theorem c10_no_newline_delivered :
    ∀ (fuel : Nat) (ra : Int → Nat → List Nat × Option Err) (r : reverser)
      (l : List Nat), l ∈ (traverse ra fuel r).1 → (10 : Nat) ∉ l
  | 0, ra, r, l, hl => by simp [traverse] at hl
  | fuel + 1, ra, r, l, hl => by
    rw [traverse] at hl
    dsimp only at hl
    by_cases hs : (r.scan ra).1 = true
    · rw [if_pos hs] at hl
      rcases List.mem_append.mp hl with h1 | h2
      · exact lines_no_nl _ l h1
      · exact c10_no_newline_delivered fuel ra _ l h2
    · rw [if_neg hs] at hl
      exact absurd hl (by simp)

theorem c10_witness : (10 : Nat) ∉ ([98] : List Nat) :=
  c10_no_newline_delivered 5 (readAtPure [97, 10, 98]) (newReverser 1 3) [98]
    (by decide)

example : toks [97, 10, 98] = [[97], [98]] := by decide
example : toks [97, 10, 10, 98, 10] = [[97], [], [98]] := by decide
example : fullTraverse [97, 10, 10, 98, 10] 1 = [[98], [], [97]] := by decide
example : fullTraverse [97, 10, 98] 2 = [[98], [97]] := by decide
example : fullTraverse [] 3 = [] := by decide
example : fullTraverse [88, 13, 13, 10] 1 = [[88]] := by decide
example : fullTraverse [88, 13, 13, 10] 4 = [[88, 13]] := by decide
example : scanTokens 3 [97, 98, 99, 100, 10, 97] = ([], some Err.tooLong) := by decide
example : scanTokens 3 [97, 10, 98, 99, 100, 100, 10] = ([[97]], some Err.tooLong) := by decide

end Varlog
